import Mathlib

/-!
Verification of the frame caching and proxy generation subsystem of the
dino video editor (src/frame.rs, src/frame_cache.rs, src/proxy_generator.rs).

Modelling conventions:
- Rust f32 values (timestamps, frame rates, progress) are modelled as
  rationals; the f32 signed zero and NaN corner cases are not modelled.
- Rust String is modelled as List Char where the proofs need its
  structure (cache keys and video paths of the frame cache), and as a
  Lean String elsewhere (registry keys, file paths).
- std::time::Instant, a monotonic clock, is modelled as a Nat passed
  explicitly to each operation that reads the clock.
- HashMap is modelled as an association list with unique keys; the
  iteration order of the model is the list order (the Rust iteration
  order is arbitrary, and no theorem below depends on a specific order).
- Mutex lock acquisition always succeeds in this sequential model: in
  the source every lock call is wrapped in if let Ok, and lock only
  fails on poisoning, which needs a panicking thread.
-/

namespace Dino

/-- A Rust String modelled as its list of characters. -/
abbrev Str := List Char

/-- frame.rs: decoded pixel buffer plus metadata; pixels is a byte Vec. -/
structure Frame where
  width : Nat
  height : Nat
  pixels : List Nat
  timestamp : ℚ
deriving DecidableEq

/-- frame_cache.rs, struct CachedFrame: a frame with its access time. -/
structure CachedFrame where
  frame : Frame
  last_accessed : Nat
  is_loading : Bool
deriving DecidableEq

/-- frame_cache.rs, struct FrameCache: the map and the capacity. -/
structure FrameCache where
  cache : List (Str × CachedFrame)
  max_cache_size : Nat
deriving DecidableEq

/-- HashMap::get, on the association list model. -/
def lookupAssoc {κ ν : Type} [DecidableEq κ] (k : κ) : List (κ × ν) → Option ν
  | [] => none
  | (k', v) :: t => if k' = k then some v else lookupAssoc k t

/-- HashMap::insert: replace the value at an existing key in place,
otherwise add the binding. -/
def insertAssoc {κ ν : Type} [DecidableEq κ] (k : κ) (v : ν) : List (κ × ν) → List (κ × ν)
  | [] => [(k, v)]
  | (k', v') :: t => if k' = k then (k, v) :: t else (k', v') :: insertAssoc k v t

/-- HashMap::contains_key. -/
def containsKey {κ ν : Type} [DecidableEq κ] (k : κ) (m : List (κ × ν)) : Bool :=
  (lookupAssoc k m).isSome

/-- HashMap::remove: keys of a map are unique, so removing a key keeps
exactly the bindings at other keys. -/
def removeAssoc {κ ν : Type} [DecidableEq κ] (k : κ) (m : List (κ × ν)) : List (κ × ν) :=
  m.filter (fun kv => decide (kv.1 ≠ k))

/-- Insertion step of the stable sort: place the element before the
first list element it compares at or below. -/
def orderedInsertBy {α : Type} (le : α → α → Bool) (a : α) : List α → List α
  | [] => [a]
  | b :: l => if le a b then a :: b :: l else b :: orderedInsertBy le a l

/-- Stable comparison sort, modelling slice::sort_by and
slice::sort_by_key (both stable sorts; a stable sort is determined up to
ties, and no theorem below depends on tie order). -/
def sortBy {α : Type} (le : α → α → Bool) : List α → List α
  | [] => []
  | a :: l => orderedInsertBy le a (sortBy le l)

/-- f32::round: round half away from zero, yielding an integer. -/
def rustRound (q : ℚ) : ℤ :=
  if q < 0 then -⌊-q + 1/2⌋ else ⌊q + 1/2⌋

/-- Decimal digits of a Nat, most significant first (fuel variant). -/
def natToCharsAux : Nat → Nat → List Char
  | 0, _ => []
  | fuel + 1, n =>
      if n < 10 then [Nat.digitChar n]
      else natToCharsAux fuel (n / 10) ++ [Nat.digitChar (n % 10)]

/-- Decimal rendering of a Nat. -/
def natToChars (n : Nat) : List Char := natToCharsAux (n + 1) n

/-- Rendering of the quantized time with exactly one decimal digit, as
format with precision 1 does in make_cache_key; the argument is the
quantized time in tenths of a second. -/
def fmtTenths (n : ℤ) : Str :=
  if n < 0 then '-' :: (natToChars ((-n).toNat / 10) ++ '.' :: natToChars ((-n).toNat % 10))
  else natToChars (n.toNat / 10) ++ '.' :: natToChars (n.toNat % 10)

/-- make_cache_key: the video path, a colon, then the time rounded to
the nearest 0.1 second printed with one decimal digit. -/
def makeCacheKey (video_path : Str) (time : ℚ) : Str :=
  video_path ++ ':' :: fmtTenths (rustRound (time * 10))

/-- Value of a digit list read in base ten. -/
def natOfDigits (l : List Char) : Nat :=
  l.foldl (fun acc c => acc * 10 + (c.toNat - 48)) 0

/-- Unsigned part of str::parse on plain decimal forms: digits with an
optional fractional part, at least one digit overall. -/
def parseUnsignedDec (l : Str) : Option ℚ :=
  let ip := l.takeWhile (fun c => c.isDigit)
  let rest := l.dropWhile (fun c => c.isDigit)
  match rest with
  | [] => if ip.isEmpty then none else some (natOfDigits ip)
  | '.' :: frac =>
      if frac.all (fun c => c.isDigit) && !(ip.isEmpty && frac.isEmpty) then
        some ((natOfDigits ip : ℚ) + (natOfDigits frac : ℚ) / (10 : ℚ) ^ frac.length)
      else none
  | _ => none

/-- Models str::parse into f32 on the plain decimal forms that cache
keys contain (optional sign, digits, optional fractional part); the
other accepted f32 syntaxes (exponents, inf, nan) never occur in keys
and are rejected here. -/
def parseDec (l : Str) : Option ℚ :=
  match l with
  | '-' :: rest => (parseUnsignedDec rest).map (fun q => -q)
  | '+' :: rest => parseUnsignedDec rest
  | _ => parseUnsignedDec l

/-- str::split on one separator character; always returns at least one
piece, and empty pieces are kept, as in Rust. -/
def splitOnChar (sep : Char) (l : Str) : List Str :=
  l.foldr
    (fun c acc =>
      if c = sep then [] :: acc
      else
        match acc with
        | [] => [[c]]
        | h :: t => (c :: h) :: t)
    [[]]

/-- One candidate of the find_nearby_frame scan: an entry whose key
starts with the video path, is not loading, and whose second colon
separated piece parses as a number, paired with the distance between
that parsed time and the target time. -/
def nearbyCandidates (c : FrameCache) (video_path : Str) (target_time : ℚ) :
    List (CachedFrame × ℚ) :=
  c.cache.filterMap (fun kv =>
    if video_path.isPrefixOf kv.1 && !kv.2.is_loading then
      match (splitOnChar ':' kv.1).get? 1 with
      | some ts => (parseDec ts).map (fun time => (kv.2, |time - target_time|))
      | none => none
    else none)

/-- One iteration of the running minimum of the find_nearby_frame loop:
replace the best candidate only on a strictly smaller distance. -/
def bestOfStep (best : Option (CachedFrame × ℚ)) (cand : CachedFrame × ℚ) :
    Option (CachedFrame × ℚ) :=
  match best with
  | none => some cand
  | some b => if cand.2 < b.2 then some cand else some b

/-- The running minimum of the find_nearby_frame loop: keeps the first
candidate attaining the strictly smallest distance. -/
def bestOf (l : List (CachedFrame × ℚ)) : Option (CachedFrame × ℚ) :=
  l.foldl bestOfStep none

/-- find_nearby_frame: scan the whole map, keep the candidate with the
smallest distance, and return its frame only when that distance is
strictly below half a second. The running minimum starts at infinity in
the source, so an empty candidate set returns none. -/
def findNearbyFrame (c : FrameCache) (video_path : Str) (target_time : ℚ) : Option Frame :=
  match bestOf (nearbyCandidates c video_path target_time) with
  | some bd => if bd.2 < 1/2 then some bd.1.frame else none
  | none => none

/-- get_frame: exact quantized lookup, refreshing the access time on a
hit, with the nearby fallback (which does not mutate the cache) on a
miss; now is the value of Instant::now at the call. -/
def getFrame (now : Nat) (c : FrameCache) (video_path : Str) (time : ℚ) :
    Option Frame × FrameCache :=
  let key := makeCacheKey video_path time
  match lookupAssoc key c.cache with
  | some cf =>
      (some cf.frame,
        { c with cache := insertAssoc key { cf with last_accessed := now } c.cache })
  | none => (findNearbyFrame c video_path time, c)

/-- add_frame: insert at the quantized key; when the entry count then
exceeds the capacity, sort the (key, last access) pairs by access time
(sort_by_key, a stable ascending sort) and remove the first
max_cache_size / 5 keys from the map. -/
def addFrame (now : Nat) (c : FrameCache) (video_path : Str) (time : ℚ) (frame : Frame) :
    FrameCache :=
  let key := makeCacheKey video_path time
  let cache1 :=
    insertAssoc key { frame := frame, last_accessed := now, is_loading := false } c.cache
  if cache1.length > c.max_cache_size then
    let entries := cache1.map (fun kv => (kv.1, kv.2.last_accessed))
    let sorted := sortBy (fun a b => decide (a.2 ≤ b.2)) entries
    let toRemove := sorted.take (c.max_cache_size / 5)
    { c with cache := toRemove.foldl (fun m kb => removeAssoc kb.1 m) cache1 }
  else
    { c with cache := cache1 }

/-- FrameCache::new: empty map, capacity 100. -/
def FrameCache.new : FrameCache :=
  { cache := [], max_cache_size := 100 }

/-- clear_cache. -/
def clearCache (c : FrameCache) : FrameCache :=
  { c with cache := [] }

/-- get_cache_stats: entry count and the constant zero loading count. -/
def getCacheStats (c : FrameCache) : Nat × Nat :=
  (c.cache.length, 0)

/-- One recorded call of add_frame, for provenance statements. -/
structure PutOp where
  video_path : Str
  time : ℚ
  frame : Frame
  now : Nat

/-- The cache obtained by replaying a list of add_frame calls on a fresh
cache. -/
def cacheOfPuts (ops : List PutOp) : FrameCache :=
  ops.foldl (fun c op => addFrame op.now c op.video_path op.time op.frame) FrameCache.new

/-! ## Proxy generation pipeline (src/proxy_generator.rs) -/

/-- One mixing step. Models one write into DefaultHasher (SipHash 1 3):
a deterministic function of the sequence of values fed to it. Every
theorem below depends only on which fields reach the hasher and on its
determinism, never on the mixing itself, so the mixing is a plain
deterministic stand in. -/
def hashStep (h x : Nat) : Nat := (h * 1099511628211 + x + 1) % 2 ^ 64

/-- Hash::hash of a Rust String: feed its characters. -/
def hashStr (h : Nat) (s : String) : Nat :=
  (s.toList.map Char.toNat).foldl hashStep (hashStep h s.length)

/-- The f32 to u32 as cast: truncation toward zero, saturating at the
u32 range (NaN, which casts to zero, is not modelled). -/
def u32OfRat (q : ℚ) : Nat :=
  if q ≤ 0 then 0 else min ⌊q⌋.toNat (2 ^ 32 - 1)

/-- Hex digits of a Nat, most significant first (fuel variant). -/
def toHexAux : Nat → Nat → List Char
  | 0, _ => []
  | fuel + 1, n =>
      if n = 0 then [] else toHexAux fuel (n / 16) ++ [Nat.digitChar (n % 16)]

/-- Lowercase hex rendering, as format with the x specifier. -/
def toHex (n : Nat) : String :=
  if n = 0 then "0" else String.mk (toHexAux 64 n)

/-- proxy_generator.rs, enum ProxyQuality. -/
inductive ProxyQuality
  | Draft
  | Preview
  | High
deriving DecidableEq

/-- proxy_generator.rs, struct ProxySettings. -/
structure ProxySettings where
  resolution : Nat × Nat
  frame_rate : ℚ
  quality : ProxyQuality
deriving DecidableEq

/-- impl Default for ProxySettings. -/
def ProxySettings.default : ProxySettings :=
  { resolution := (480, 270), frame_rate := 30, quality := ProxyQuality.Preview }

/-- proxy_generator.rs, struct ProxyRequest. -/
structure ProxyRequest where
  video_path : String
  proxy_settings : ProxySettings
  priority : Int
deriving DecidableEq

/-- proxy_generator.rs, struct ProxyInfo. -/
structure ProxyInfo where
  proxy_path : String
  original_path : String
  settings : ProxySettings
  generation_progress : ℚ
  is_ready : Bool
  file_size : Nat
  created_at : Nat
deriving DecidableEq

/-- proxy_generator.rs, struct ProxyGenerator: the two locked shared
structures, the running flag, the cache directory and the join handle
(modelled as a unit option). -/
structure ProxyGenerator where
  proxy_cache_dir : String
  generation_queue : List ProxyRequest
  proxy_registry : List (String × ProxyInfo)
  worker_running : Bool
  worker_handle : Option Unit
deriving DecidableEq

/-- generate_proxy_id: hash of the video path, the resolution pair and
the frame rate cast to u32, rendered in hex. The quality field never
reaches the hasher. -/
def generateProxyId (video_path : String) (settings : ProxySettings) : String :=
  let h0 := hashStr 0 video_path
  let h1 := hashStep (hashStep h0 settings.resolution.1) settings.resolution.2
  let h2 := hashStep h1 (u32OfRat settings.frame_rate)
  toHex h2

/-- PathBuf::join followed by to_string_lossy; joining onto the empty
base path keeps just the file name. -/
def pathJoin (dir file : String) : String :=
  if dir = "" then file else dir ++ "/" ++ file

/-- generate_proxy_path: cache directory joined with
proxy_(id)_(frame rate as u32).mp4. -/
def generateProxyPath (dir video_path : String) (settings : ProxySettings) : String :=
  let pid := generateProxyId video_path settings
  pathJoin dir
    ("proxy_" ++ pid ++ "_" ++ String.mk (natToChars (u32OfRat settings.frame_rate)) ++ ".mp4")

/-- The fresh pending record inserted by request_proxy. -/
def pendingInfo (now : Nat) (dir video_path : String) (settings : ProxySettings) : ProxyInfo :=
  { proxy_path := generateProxyPath dir video_path settings
    original_path := video_path
    settings := settings
    generation_progress := 0
    is_ready := false
    file_size := 0
    created_at := now }

/-- The first locked section of request_proxy: push the request, then
stable sort the queue with the comparator b.priority.cmp(a.priority),
that is by descending priority. -/
def requestQueuePhase (g : ProxyGenerator) (video_path : String) (settings : ProxySettings)
    (priority : Int) : ProxyGenerator :=
  let request : ProxyRequest :=
    { video_path := video_path, proxy_settings := settings, priority := priority }
  { g with generation_queue :=
      sortBy (fun a b => decide (b.priority ≤ a.priority)) (g.generation_queue ++ [request]) }

/-- The second locked section of request_proxy: insert the pending
record at the fingerprint; now is Instant::now at the insertion. -/
def requestRegistryPhase (now : Nat) (g : ProxyGenerator) (video_path : String)
    (settings : ProxySettings) : ProxyGenerator :=
  let pid := generateProxyId video_path settings
  { g with proxy_registry :=
      insertAssoc pid (pendingInfo now g.proxy_cache_dir video_path settings) g.proxy_registry }

/-- request_proxy: a no op when the fingerprint is already registered;
otherwise the queue push section runs first and the registry insert
section second. -/
def requestProxy (now : Nat) (g : ProxyGenerator) (video_path : String)
    (settings : ProxySettings) (priority : Int) : ProxyGenerator :=
  let pid := generateProxyId video_path settings
  if containsKey pid g.proxy_registry then g
  else requestRegistryPhase now (requestQueuePhase g video_path settings priority)
    video_path settings

/-- Vec::pop in the worker loop: removes and returns the last element. -/
def queuePop (q : List ProxyRequest) : Option ProxyRequest × List ProxyRequest :=
  (q.getLast?, q.dropLast)

/-- The environment of one generate_proxy_file run: availability of the
ffmpeg binary, success of the spawned process (spawn succeeded and the
exit status was zero), and the visible file system, mapping a path to
the size of the file there when one exists. -/
structure WorkerEnv where
  ffmpeg_available : Bool
  ffmpeg_success : Bool
  fs : String → Option Nat

/-- generate_proxy_file: recompute the fingerprint from the request,
bail out when ffmpeg is unavailable, read the output path from the
registry (the empty string when the record is missing), set progress to
0.1, run the transcode, then write the terminal state: the file size is
read only when the process succeeded and the output file exists, and
the record becomes ready exactly when that size is above zero. The
queue is never touched. -/
def generateProxyFile (env : WorkerEnv) (request : ProxyRequest)
    (registry : List (String × ProxyInfo)) : List (String × ProxyInfo) :=
  let pid := generateProxyId request.video_path request.proxy_settings
  if !env.ffmpeg_available then registry
  else
    let proxy_path :=
      match lookupAssoc pid registry with
      | some info => info.proxy_path
      | none => ""
    let registry1 :=
      match lookupAssoc pid registry with
      | some info => insertAssoc pid { info with generation_progress := 1/10 } registry
      | none => registry
    let result := env.ffmpeg_success
    let fsize :=
      if result && (env.fs proxy_path).isSome then
        match env.fs proxy_path with
        | some n => n
        | none => 0
      else 0
    match lookupAssoc pid registry1 with
    | some info =>
        insertAssoc pid
          { info with
            is_ready := decide (0 < fsize)
            generation_progress := if 0 < fsize then 1 else 0
            file_size := fsize }
          registry1
    | none => registry1

/-- One iteration of the worker loop: exit when the running flag is
down; otherwise pop from the queue tail and process the popped job; an
empty queue only sleeps. -/
def workerStep (env : WorkerEnv) (g : ProxyGenerator) : ProxyGenerator :=
  if !g.worker_running then g
  else
    match queuePop g.generation_queue with
    | (some req, q) =>
        { g with
          generation_queue := q
          proxy_registry := generateProxyFile env req g.proxy_registry }
    | (none, _) => g

/-- The environment of ProxyGenerator::new: the temp directory and
whether create_dir_all succeeds. -/
structure NewEnv where
  temp_dir : String
  create_dir_ok : Bool

/-- ProxyGenerator::new: creating the cache directory is the only hard
error; on success the worker thread starts with the running flag up. -/
def ProxyGenerator.new (env : NewEnv) : Except Unit ProxyGenerator :=
  if env.create_dir_ok then
    Except.ok
      { proxy_cache_dir := pathJoin env.temp_dir "dino_proxy_cache"
        generation_queue := []
        proxy_registry := []
        worker_running := true
        worker_handle := some () }
  else Except.error ()

/-- impl Default for ProxyGenerator: new, with unwrap_or_else falling
back to the degraded value (empty directory path, empty structures, the
running flag down, no worker thread). -/
def ProxyGenerator.defaultOf (env : NewEnv) : ProxyGenerator :=
  match ProxyGenerator.new env with
  | Except.ok g => g
  | Except.error _ =>
      { proxy_cache_dir := ""
        generation_queue := []
        proxy_registry := []
        worker_running := false
        worker_handle := none }

/-- Number of queue entries whose fingerprint is the given one. -/
def queueCountFp (q : List ProxyRequest) (pid : String) : Nat :=
  q.countP (fun r => decide (generateProxyId r.video_path r.proxy_settings = pid))

/-- Number of registry bindings at the given fingerprint. -/
def registryCountKey (reg : List (String × ProxyInfo)) (pid : String) : Nat :=
  reg.countP (fun kv => decide (kv.1 = pid))

/-- One recorded call of request_proxy. -/
structure ReqOp where
  now : Nat
  video_path : String
  settings : ProxySettings
  priority : Int

/-- Replay a list of request_proxy calls on a generator state. -/
def replayRequests (g : ProxyGenerator) (ops : List ReqOp) : ProxyGenerator :=
  ops.foldl (fun g' op => requestProxy op.now g' op.video_path op.settings op.priority) g

/-- A registry where every record is still pending. -/
def allPending (reg : List (String × ProxyInfo)) : Prop :=
  ∀ kv ∈ reg, kv.2.is_ready = false ∧ kv.2.generation_progress = 0

/-- Concrete frame used by counterexamples. -/
def frameA : Frame :=
  { width := 1, height := 1, pixels := [1, 2, 3, 4], timestamp := 0 }

/-- Second concrete frame used by counterexamples, distinct from frameA. -/
def frameB : Frame :=
  { width := 1, height := 1, pixels := [9, 9, 9, 9], timestamp := 0 }

/-! ## Association list lemmas -/

theorem lookupAssoc_insertAssoc_self {κ ν : Type} [DecidableEq κ] (k : κ) (v : ν)
    (m : List (κ × ν)) : lookupAssoc k (insertAssoc k v m) = some v := by
  induction m with
  | nil => simp [insertAssoc, lookupAssoc]
  | cons kv t ih =>
      obtain ⟨k', v'⟩ := kv
      by_cases h : k' = k
      · subst h
        simp [insertAssoc, lookupAssoc]
      · simp [insertAssoc, h, lookupAssoc, ih]

theorem lookupAssoc_insertAssoc_ne {κ ν : Type} [DecidableEq κ] {k k' : κ} (v : ν)
    (m : List (κ × ν)) (h : k' ≠ k) :
    lookupAssoc k' (insertAssoc k v m) = lookupAssoc k' m := by
  induction m with
  | nil => simp [insertAssoc, lookupAssoc, Ne.symm h]
  | cons kv t ih =>
      obtain ⟨k'', v''⟩ := kv
      by_cases h2 : k'' = k
      · subst h2
        simp [insertAssoc, lookupAssoc, Ne.symm h]
      · simp [insertAssoc, h2, lookupAssoc, ih]

theorem mem_insertAssoc {κ ν : Type} [DecidableEq κ] {kv : κ × ν} {k : κ} {v : ν} :
    ∀ {m : List (κ × ν)}, kv ∈ insertAssoc k v m → kv = (k, v) ∨ kv ∈ m := by
  intro m
  induction m with
  | nil =>
      intro h
      simpa [insertAssoc] using h
  | cons kv' t ih =>
      obtain ⟨k', v'⟩ := kv'
      intro h
      by_cases h2 : k' = k
      · subst h2
        have h3 : kv = (k', v) ∨ kv ∈ t := by simpa [insertAssoc] using h
        rcases h3 with h3 | h3
        · exact Or.inl h3
        · exact Or.inr (List.mem_cons_of_mem _ h3)
      · simp only [insertAssoc, if_neg h2, List.mem_cons] at h
        rcases h with h | h
        · exact Or.inr (h ▸ List.mem_cons_self _ _)
        · rcases ih h with h3 | h3
          · exact Or.inl h3
          · exact Or.inr (List.mem_cons_of_mem _ h3)

theorem self_mem_insertAssoc {κ ν : Type} [DecidableEq κ] (k : κ) (v : ν)
    (m : List (κ × ν)) : (k, v) ∈ insertAssoc k v m := by
  induction m with
  | nil => simp [insertAssoc]
  | cons kv t ih =>
      obtain ⟨k', v'⟩ := kv
      by_cases h : k' = k
      · subst h
        simp [insertAssoc]
      · simp only [insertAssoc, if_neg h, List.mem_cons]
        exact Or.inr ih

theorem keys_insertAssoc {κ ν : Type} [DecidableEq κ] (k : κ) (v : ν) (m : List (κ × ν)) :
    (insertAssoc k v m).map Prod.fst =
      if k ∈ m.map Prod.fst then m.map Prod.fst else m.map Prod.fst ++ [k] := by
  induction m with
  | nil => simp [insertAssoc]
  | cons kv t ih =>
      obtain ⟨k', v'⟩ := kv
      by_cases h : k' = k
      · subst h
        simp [insertAssoc]
      · have hkk : ¬ k = k' := fun e => h e.symm
        by_cases h2 : k ∈ t.map Prod.fst
        · simp [insertAssoc, h, ih, h2, List.mem_cons, hkk]
        · simp [insertAssoc, h, ih, h2, List.mem_cons, hkk]

theorem nodupKeys_insertAssoc {κ ν : Type} [DecidableEq κ] (k : κ) (v : ν)
    {m : List (κ × ν)} (h : (m.map Prod.fst).Nodup) :
    ((insertAssoc k v m).map Prod.fst).Nodup := by
  rw [keys_insertAssoc]
  split_ifs with h2
  · exact h
  · simp only [List.nodup_append, List.nodup_singleton, true_and]
    refine ⟨h, fun a ha hk => ?_⟩
    exact h2 (List.mem_singleton.mp hk ▸ ha)

theorem length_insertAssoc {κ ν : Type} [DecidableEq κ] (k : κ) (v : ν) (m : List (κ × ν)) :
    (insertAssoc k v m).length =
      if k ∈ m.map Prod.fst then m.length else m.length + 1 := by
  have h := congrArg List.length (keys_insertAssoc k v m)
  simpa [apply_ite List.length] using h

theorem mem_of_lookupAssoc {κ ν : Type} [DecidableEq κ] {k : κ} {v : ν} :
    ∀ {m : List (κ × ν)}, lookupAssoc k m = some v → (k, v) ∈ m := by
  intro m
  induction m with
  | nil => simp [lookupAssoc]
  | cons kv t ih =>
      obtain ⟨k', v'⟩ := kv
      by_cases h : k' = k
      · subst h
        intro h2
        obtain rfl : v' = v := by simpa [lookupAssoc] using h2
        exact List.mem_cons_self _ _
      · intro h2
        rw [lookupAssoc, if_neg h] at h2
        exact List.mem_cons_of_mem _ (ih h2)

theorem lookupAssoc_of_mem_nodup {κ ν : Type} [DecidableEq κ] {k : κ} {v : ν}
    {m : List (κ × ν)} (hn : (m.map Prod.fst).Nodup) (hm : (k, v) ∈ m) :
    lookupAssoc k m = some v := by
  induction m with
  | nil => cases hm
  | cons kv t ih =>
      obtain ⟨k', v'⟩ := kv
      simp only [List.map_cons, List.nodup_cons] at hn
      rcases List.mem_cons.mp hm with h | h
      · have hk : k = k' := congrArg Prod.fst h
        have hv : v = v' := congrArg Prod.snd h
        subst hk
        simp [lookupAssoc, hv]
      · have hne : k' ≠ k := by
          intro e
          subst e
          exact hn.1 (List.mem_map.mpr ⟨(k', v), h, rfl⟩)
        simp [lookupAssoc, hne, ih hn.2 h]

theorem lookupAssoc_eq_none_iff {κ ν : Type} [DecidableEq κ] {k : κ} {m : List (κ × ν)} :
    lookupAssoc k m = none ↔ k ∉ m.map Prod.fst := by
  induction m with
  | nil => simp [lookupAssoc]
  | cons kv t ih =>
      obtain ⟨k', v'⟩ := kv
      by_cases h : k' = k
      · subst h
        simp [lookupAssoc]
      · have hkk : ¬ k = k' := fun e => h e.symm
        simp [lookupAssoc, h, ih, List.mem_cons, hkk]

theorem containsKey_iff {κ ν : Type} [DecidableEq κ] {k : κ} {m : List (κ × ν)} :
    containsKey k m = true ↔ k ∈ m.map Prod.fst := by
  unfold containsKey
  cases h : lookupAssoc k m with
  | none =>
      have h2 := lookupAssoc_eq_none_iff.mp h
      simp [h2]
  | some v =>
      have h2 : k ∈ m.map Prod.fst := List.mem_map.mpr ⟨(k, v), mem_of_lookupAssoc h, rfl⟩
      simp [h2]

theorem containsKey_eq_false_iff {κ ν : Type} [DecidableEq κ] {k : κ} {m : List (κ × ν)} :
    containsKey k m = false ↔ k ∉ m.map Prod.fst := by
  rw [← Bool.not_eq_true, not_iff_not]
  exact containsKey_iff

/-! ## Stable sort lemmas -/

theorem perm_orderedInsertBy {α : Type} (le : α → α → Bool) (a : α) (l : List α) :
    List.Perm (orderedInsertBy le a l) (a :: l) := by
  induction l with
  | nil => exact List.Perm.refl _
  | cons b t ih =>
      unfold orderedInsertBy
      split
      · exact List.Perm.refl _
      · exact (ih.cons b).trans (List.Perm.swap a b t)

theorem perm_sortBy {α : Type} (le : α → α → Bool) (l : List α) :
    List.Perm (sortBy le l) l := by
  induction l with
  | nil => exact List.Perm.refl _
  | cons a t ih =>
      unfold sortBy
      exact (perm_orderedInsertBy le a (sortBy le t)).trans (ih.cons a)

theorem pairwise_orderedInsertBy {α : Type} (le : α → α → Bool)
    (htrans : ∀ a b c, le a b = true → le b c = true → le a c = true)
    (htotal : ∀ a b, le a b = true ∨ le b a = true) (a : α) (l : List α)
    (hl : l.Pairwise (fun x y => le x y = true)) :
    (orderedInsertBy le a l).Pairwise (fun x y => le x y = true) := by
  induction l with
  | nil => simp [orderedInsertBy]
  | cons b t ih =>
      rcases List.pairwise_cons.mp hl with ⟨hb, ht⟩
      unfold orderedInsertBy
      split
      · rename_i hab
        refine List.pairwise_cons.mpr ⟨?_, hl⟩
        intro y hy
        rcases List.mem_cons.mp hy with rfl | hy
        · exact hab
        · exact htrans a b y hab (hb y hy)
      · rename_i hab
        refine List.pairwise_cons.mpr ⟨?_, ih ht⟩
        intro y hy
        have hy2 := (perm_orderedInsertBy le a t).mem_iff.mp hy
        rcases List.mem_cons.mp hy2 with rfl | hy2
        · rcases htotal y b with h | h
          · exact absurd h hab
          · exact h
        · exact hb y hy2

theorem pairwise_sortBy {α : Type} (le : α → α → Bool)
    (htrans : ∀ a b c, le a b = true → le b c = true → le a c = true)
    (htotal : ∀ a b, le a b = true ∨ le b a = true) (l : List α) :
    (sortBy le l).Pairwise (fun x y => le x y = true) := by
  induction l with
  | nil => simp [sortBy]
  | cons a t ih =>
      unfold sortBy
      exact pairwise_orderedInsertBy le htrans htotal a (sortBy le t) ih

/-! ## Proxy generator lemmas -/

theorem insertAssoc_of_not_mem {κ ν : Type} [DecidableEq κ] {k : κ} (v : ν)
    {m : List (κ × ν)} (h : k ∉ m.map Prod.fst) : insertAssoc k v m = m ++ [(k, v)] := by
  induction m with
  | nil => simp [insertAssoc]
  | cons kv t ih =>
      obtain ⟨k', v'⟩ := kv
      simp only [List.map_cons, List.mem_cons, not_or] at h
      have h2 : ¬ k' = k := fun e => h.1 e.symm
      simp [insertAssoc, h2, ih h.2]

theorem countP_eq_one_of_nodup_mem {α : Type} [DecidableEq α] {l : List α} {a : α}
    (h : l.Nodup) (ha : a ∈ l) : l.countP (fun x => decide (x = a)) = 1 := by
  induction l with
  | nil => cases ha
  | cons b t ih =>
      simp only [List.nodup_cons] at h
      rcases List.mem_cons.mp ha with rfl | ha2
      · rw [List.countP_cons_of_pos _ _ (by simp)]
        have h0 : t.countP (fun x => decide (x = a)) = 0 :=
          List.countP_eq_zero.mpr (fun x hx => by
            simp only [decide_eq_true_eq]
            intro e
            exact h.1 (e ▸ hx))
        omega
      · have hba : ¬ b = a := fun e => h.1 (e ▸ ha2)
        rw [List.countP_cons_of_neg _ _ (by simp [hba])]
        exact ih h.2 ha2

theorem registryCountKey_eq_countP_keys (reg : List (String × ProxyInfo)) (pid : String) :
    registryCountKey reg pid = (reg.map Prod.fst).countP (fun x => decide (x = pid)) := by
  unfold registryCountKey
  rw [List.countP_map]
  rfl

/-- request_proxy with an already registered fingerprint is the identity. -/
theorem requestProxy_of_containsKey (now : Nat) (g : ProxyGenerator) (s : String)
    (st : ProxySettings) (p : Int)
    (h : containsKey (generateProxyId s st) g.proxy_registry = true) :
    requestProxy now g s st p = g := by
  unfold requestProxy
  simp [h]

/-- After request_proxy the fingerprint is always registered. -/
theorem containsKey_requestProxy (now : Nat) (g : ProxyGenerator) (s : String)
    (st : ProxySettings) (p : Int) :
    containsKey (generateProxyId s st) (requestProxy now g s st p).proxy_registry = true := by
  cases h : containsKey (generateProxyId s st) g.proxy_registry with
  | true => simp [requestProxy, h]
  | false =>
      have h2 : (lookupAssoc (generateProxyId s st) g.proxy_registry).isSome = false := h
      simp [requestProxy, containsKey, h2, requestRegistryPhase, lookupAssoc_insertAssoc_self]

/-- request_proxy never changes the worker fields. -/
theorem requestProxy_worker_fields (now : Nat) (g : ProxyGenerator) (s : String)
    (st : ProxySettings) (p : Int) :
    (requestProxy now g s st p).worker_running = g.worker_running ∧
    (requestProxy now g s st p).worker_handle = g.worker_handle := by
  cases h : containsKey (generateProxyId s st) g.proxy_registry with
  | true => simp [requestProxy, h]
  | false => simp [requestProxy, h, requestRegistryPhase, requestQueuePhase]

/-- request_proxy only ever inserts pending records. -/
theorem allPending_requestProxy (now : Nat) (g : ProxyGenerator) (s : String)
    (st : ProxySettings) (p : Int) (h : allPending g.proxy_registry) :
    allPending (requestProxy now g s st p).proxy_registry := by
  cases h2 : containsKey (generateProxyId s st) g.proxy_registry with
  | true =>
      rw [requestProxy_of_containsKey now g s st p h2]
      exact h
  | false =>
      have hreg : (requestProxy now g s st p).proxy_registry =
          insertAssoc (generateProxyId s st) (pendingInfo now g.proxy_cache_dir s st)
            g.proxy_registry := by
        simp [requestProxy, h2, requestRegistryPhase, requestQueuePhase]
      rw [hreg]
      intro kv hm
      rcases mem_insertAssoc hm with h3 | h3
      · rw [h3]
        exact ⟨rfl, rfl⟩
      · exact h kv h3

/-- Replaying request_proxy calls keeps every record pending and keeps
the worker fields. -/
theorem replayRequests_invariant (ops : List ReqOp) :
    ∀ g : ProxyGenerator, allPending g.proxy_registry →
      allPending (replayRequests g ops).proxy_registry ∧
      (replayRequests g ops).worker_running = g.worker_running ∧
      (replayRequests g ops).worker_handle = g.worker_handle := by
  induction ops with
  | nil => exact fun g h => ⟨h, rfl, rfl⟩
  | cons op t ih =>
      intro g h
      have h1 := allPending_requestProxy op.now g op.video_path op.settings op.priority h
      have h2 := requestProxy_worker_fields op.now g op.video_path op.settings op.priority
      have h3 := ih (requestProxy op.now g op.video_path op.settings op.priority) h1
      exact ⟨h3.1, h3.2.1.trans h2.1, h3.2.2.trans h2.2⟩

/-- A worker iteration on a stopped generator does nothing. -/
theorem workerStep_of_not_running (env : WorkerEnv) (g : ProxyGenerator)
    (h : g.worker_running = false) : workerStep env g = g := by
  unfold workerStep
  simp [h]

/-! ## C5: fingerprint determinism, quality tier excluded -/

/-- C5: the fingerprint is deterministic over (source path, resolution,
frame rate truncated to an integer) and ignores the quality tier: two
settings agreeing on resolution and frame rate yield equal fingerprints
whatever their quality tiers, and identical inputs always yield equal
fingerprints. -/
theorem generateProxyId_ignores_quality (s : String) (st1 st2 : ProxySettings)
    (hres : st1.resolution = st2.resolution) (hfr : st1.frame_rate = st2.frame_rate) :
    generateProxyId s st1 = generateProxyId s st2 ∧
      ∀ (s' : String) (st' : ProxySettings), generateProxyId s' st' = generateProxyId s' st' := by
  refine ⟨?_, fun _ _ => rfl⟩
  unfold generateProxyId
  rw [hres, hfr]

/-- C5 witness: same resolution and frame rate, different quality tiers,
equal fingerprints. -/
theorem generateProxyId_ignores_quality_witness :
    generateProxyId "a.mp4" ProxySettings.default =
      generateProxyId "a.mp4" { ProxySettings.default with quality := ProxyQuality.Draft } :=
  (generateProxyId_ignores_quality "a.mp4" ProxySettings.default
    { ProxySettings.default with quality := ProxyQuality.Draft } rfl rfl).1

/-! ## C1: which end of the queue the worker pops -/

unseal Rat.add Rat.mul Rat.sub Rat.inv Rat.ofScientific in
/-- C1: the queue is sorted by descending priority on insertion, but the
worker pops with Vec::pop, which takes the tail: after two request_proxy
calls with priorities 5 and 1, the popped job has priority 1 while the
priority 5 job is still pending, so the worker serves the lowest
priority job, not the highest. -/
theorem worker_pops_lowest_priority :
    ((queuePop (requestProxy 1 (requestProxy 0 (ProxyGenerator.defaultOf ⟨"/tmp", true⟩)
          "a.mp4" ProxySettings.default 5) "b.mp4" ProxySettings.default 1).generation_queue).1.map
        (fun r => r.priority) = some 1) ∧
    ((queuePop (requestProxy 1 (requestProxy 0 (ProxyGenerator.defaultOf ⟨"/tmp", true⟩)
          "a.mp4" ProxySettings.default 5) "b.mp4" ProxySettings.default 1).generation_queue).2.map
        (fun r => r.priority) = [5]) := by
  exact ⟨by decide, by decide⟩

/-- Registry shape after request_proxy on an unregistered fingerprint. -/
theorem requestProxy_registry_of_new (now : Nat) (g : ProxyGenerator) (s : String)
    (st : ProxySettings) (p : Int)
    (h : containsKey (generateProxyId s st) g.proxy_registry = false) :
    (requestProxy now g s st p).proxy_registry =
      insertAssoc (generateProxyId s st) (pendingInfo now g.proxy_cache_dir s st)
        g.proxy_registry := by
  simp [requestProxy, h, requestRegistryPhase, requestQueuePhase]

/-- Queue shape after request_proxy on an unregistered fingerprint. -/
theorem requestProxy_queue_of_new (now : Nat) (g : ProxyGenerator) (s : String)
    (st : ProxySettings) (p : Int)
    (h : containsKey (generateProxyId s st) g.proxy_registry = false) :
    (requestProxy now g s st p).generation_queue =
      sortBy (fun a b => decide (b.priority ≤ a.priority))
        (g.generation_queue ++ [⟨s, st, p⟩]) := by
  simp [requestProxy, h, requestRegistryPhase, requestQueuePhase]

/-- request_proxy on an unregistered fingerprint puts the request into
the queue. -/
theorem mem_queue_requestProxy (now : Nat) (g : ProxyGenerator) (s : String)
    (st : ProxySettings) (p : Int)
    (h : containsKey (generateProxyId s st) g.proxy_registry = false) :
    (⟨s, st, p⟩ : ProxyRequest) ∈ (requestProxy now g s st p).generation_queue := by
  rw [requestProxy_queue_of_new now g s st p h]
  exact (perm_sortBy _ _).mem_iff.mpr (List.mem_append_right _ (by simp))

/-! ## C10: the degraded Default generator -/

/-- C10: Default never propagates the construction error of new: when
new fails, the fallback generator has the empty cache directory path, no
worker thread and the running flag down; request_proxy on any state
reached from the fallback still registers the fingerprint and still
enqueues the request, but a worker iteration does nothing there and
every record stays pending forever. -/
theorem defaultOf_degraded (env : NewEnv)
    (hfail : ProxyGenerator.new env = Except.error ()) :
    (ProxyGenerator.defaultOf env).proxy_cache_dir = "" ∧
    (ProxyGenerator.defaultOf env).worker_handle = none ∧
    (ProxyGenerator.defaultOf env).worker_running = false ∧
    (∀ ops : List ReqOp,
      allPending (replayRequests (ProxyGenerator.defaultOf env) ops).proxy_registry) ∧
    (∀ (ops : List ReqOp) (wenv : WorkerEnv),
      workerStep wenv (replayRequests (ProxyGenerator.defaultOf env) ops) =
        replayRequests (ProxyGenerator.defaultOf env) ops) ∧
    (∀ (ops : List ReqOp) (op : ReqOp),
      containsKey (generateProxyId op.video_path op.settings)
        (requestProxy op.now (replayRequests (ProxyGenerator.defaultOf env) ops)
          op.video_path op.settings op.priority).proxy_registry = true) ∧
    (∀ (ops : List ReqOp) (op : ReqOp),
      containsKey (generateProxyId op.video_path op.settings)
          (replayRequests (ProxyGenerator.defaultOf env) ops).proxy_registry = false →
      (⟨op.video_path, op.settings, op.priority⟩ : ProxyRequest) ∈
        (requestProxy op.now (replayRequests (ProxyGenerator.defaultOf env) ops)
          op.video_path op.settings op.priority).generation_queue) := by
  have hg : ProxyGenerator.defaultOf env =
      { proxy_cache_dir := "", generation_queue := [], proxy_registry := [],
        worker_running := false, worker_handle := none } := by
    unfold ProxyGenerator.defaultOf
    rw [hfail]
  have hpend : allPending (ProxyGenerator.defaultOf env).proxy_registry := by
    rw [hg]
    intro kv hkv
    cases hkv
  refine ⟨by rw [hg], by rw [hg], by rw [hg], ?_, ?_, ?_, ?_⟩
  · intro ops
    exact (replayRequests_invariant ops _ hpend).1
  · intro ops wenv
    apply workerStep_of_not_running
    rw [(replayRequests_invariant ops _ hpend).2.1, hg]
  · intro ops op
    exact containsKey_requestProxy _ _ _ _ _
  · intro ops op h
    exact mem_queue_requestProxy _ _ _ _ _ h

/-- C10 witness: a failing environment yields the degraded generator. -/
theorem defaultOf_degraded_witness :
    (ProxyGenerator.defaultOf ⟨"/tmp", false⟩).proxy_cache_dir = "" ∧
    (ProxyGenerator.defaultOf ⟨"/tmp", false⟩).worker_handle = none ∧
    (ProxyGenerator.defaultOf ⟨"/tmp", false⟩).worker_running = false :=
  ⟨(defaultOf_degraded ⟨"/tmp", false⟩ rfl).1,
    (defaultOf_degraded ⟨"/tmp", false⟩ rfl).2.1,
    (defaultOf_degraded ⟨"/tmp", false⟩ rfl).2.2.1⟩

/-! ## C4: queue push happens before the registry insert -/

unseal Rat.add Rat.mul Rat.sub Rat.inv Rat.ofScientific in
/-- C4 counterexample: starting from an empty generator, request_proxy
consists of its queue section followed by its registry section; at the
intermediate state after the queue lock is released the queue already
holds the request while its fingerprint is still absent from the
registry, so the Worker could pop a job that has no registry record. -/
theorem request_queue_without_registry_record :
    requestProxy 0 (ProxyGenerator.defaultOf ⟨"/tmp", true⟩) "a.mp4" ProxySettings.default 5 =
      requestRegistryPhase 0
        (requestQueuePhase (ProxyGenerator.defaultOf ⟨"/tmp", true⟩) "a.mp4"
          ProxySettings.default 5) "a.mp4" ProxySettings.default ∧
    (⟨"a.mp4", ProxySettings.default, 5⟩ : ProxyRequest) ∈
      (requestQueuePhase (ProxyGenerator.defaultOf ⟨"/tmp", true⟩) "a.mp4"
        ProxySettings.default 5).generation_queue ∧
    containsKey (generateProxyId "a.mp4" ProxySettings.default)
      (requestQueuePhase (ProxyGenerator.defaultOf ⟨"/tmp", true⟩) "a.mp4"
        ProxySettings.default 5).proxy_registry = false := by decide

/-- C4 amended: during request_proxy for a new fingerprint the request
is pushed onto the queue first and the registry record is inserted
second, so between the two locked sections the queue holds a request
whose fingerprint is absent from the registry; only when request_proxy
returns is the record present. -/
theorem requestProxy_queue_before_registry (now : Nat) (g : ProxyGenerator) (s : String)
    (st : ProxySettings) (p : Int)
    (h : containsKey (generateProxyId s st) g.proxy_registry = false) :
    requestProxy now g s st p =
      requestRegistryPhase now (requestQueuePhase g s st p) s st ∧
    (⟨s, st, p⟩ : ProxyRequest) ∈ (requestQueuePhase g s st p).generation_queue ∧
    containsKey (generateProxyId s st) (requestQueuePhase g s st p).proxy_registry = false ∧
    containsKey (generateProxyId s st) (requestProxy now g s st p).proxy_registry = true := by
  refine ⟨?_, ?_, h, containsKey_requestProxy now g s st p⟩
  · simp [requestProxy, h]
  · unfold requestQueuePhase
    exact (perm_sortBy _ _).mem_iff.mpr (List.mem_append_right _ (by simp))

unseal Rat.add Rat.mul Rat.sub Rat.inv Rat.ofScientific in
/-- C4 amended witness at a concrete input. -/
theorem requestProxy_queue_before_registry_witness :
    requestProxy 3 (ProxyGenerator.defaultOf ⟨"/d", true⟩) "b.mp4" ProxySettings.default 7 =
      requestRegistryPhase 3
        (requestQueuePhase (ProxyGenerator.defaultOf ⟨"/d", true⟩) "b.mp4"
          ProxySettings.default 7) "b.mp4" ProxySettings.default ∧
    (⟨"b.mp4", ProxySettings.default, 7⟩ : ProxyRequest) ∈
      (requestQueuePhase (ProxyGenerator.defaultOf ⟨"/d", true⟩) "b.mp4"
        ProxySettings.default 7).generation_queue ∧
    containsKey (generateProxyId "b.mp4" ProxySettings.default)
      (requestQueuePhase (ProxyGenerator.defaultOf ⟨"/d", true⟩) "b.mp4"
        ProxySettings.default 7).proxy_registry = false ∧
    containsKey (generateProxyId "b.mp4" ProxySettings.default)
      (requestProxy 3 (ProxyGenerator.defaultOf ⟨"/d", true⟩) "b.mp4"
        ProxySettings.default 7).proxy_registry = true :=
  requestProxy_queue_before_registry 3 (ProxyGenerator.defaultOf ⟨"/d", true⟩) "b.mp4"
    ProxySettings.default 7 (by decide)

/-! ## C3: request_proxy is idempotent per fingerprint -/

/-- C3: calling request_proxy twice with the same source and settings
(and any priorities) leaves exactly one registry record and at most one
queue entry for the fingerprint; when a record with the fingerprint
already exists, the second call changes neither the registry nor the
queue (it changes nothing at all). The two count hypotheses state the
quiescent invariant of reachable states: at most one queue entry per
fingerprint, and a queued fingerprint is always registered. -/
theorem requestProxy_idempotent (g : ProxyGenerator) (s : String) (st : ProxySettings)
    (p1 p2 : Int) (now1 now2 : Nat)
    (hnodup : (g.proxy_registry.map Prod.fst).Nodup)
    (hq : queueCountFp g.generation_queue (generateProxyId s st) ≤ 1)
    (hinv : 1 ≤ queueCountFp g.generation_queue (generateProxyId s st) →
      containsKey (generateProxyId s st) g.proxy_registry = true) :
    registryCountKey
        (requestProxy now2 (requestProxy now1 g s st p1) s st p2).proxy_registry
        (generateProxyId s st) = 1 ∧
    queueCountFp
        (requestProxy now2 (requestProxy now1 g s st p1) s st p2).generation_queue
        (generateProxyId s st) ≤ 1 ∧
    (containsKey (generateProxyId s st) g.proxy_registry = true →
      requestProxy now2 (requestProxy now1 g s st p1) s st p2 = g) := by
  cases hc : containsKey (generateProxyId s st) g.proxy_registry with
  | true =>
      have e1 : requestProxy now1 g s st p1 = g :=
        requestProxy_of_containsKey now1 g s st p1 hc
      have e2 : requestProxy now2 (requestProxy now1 g s st p1) s st p2 = g := by
        rw [e1]
        exact requestProxy_of_containsKey now2 g s st p2 hc
      rw [e2]
      refine ⟨?_, hq, fun _ => rfl⟩
      rw [registryCountKey_eq_countP_keys]
      exact countP_eq_one_of_nodup_mem hnodup (containsKey_iff.mp hc)
  | false =>
      have hq0 : queueCountFp g.generation_queue (generateProxyId s st) = 0 := by
        by_contra hne
        rw [hinv (Nat.one_le_iff_ne_zero.mpr hne)] at hc
        cases hc
      have hc1 : containsKey (generateProxyId s st)
          (requestProxy now1 g s st p1).proxy_registry = true :=
        containsKey_requestProxy now1 g s st p1
      have e2 : requestProxy now2 (requestProxy now1 g s st p1) s st p2 =
          requestProxy now1 g s st p1 :=
        requestProxy_of_containsKey now2 _ s st p2 hc1
      rw [e2]
      have hnotmem : (generateProxyId s st) ∉ g.proxy_registry.map Prod.fst :=
        containsKey_eq_false_iff.mp hc
      refine ⟨?_, ?_, ?_⟩
      · rw [registryCountKey_eq_countP_keys, requestProxy_registry_of_new now1 g s st p1 hc,
          insertAssoc_of_not_mem _ hnotmem, List.map_append, List.countP_append]
        have hz : (g.proxy_registry.map Prod.fst).countP (fun x => decide (x = generateProxyId s st)) = 0 :=
          List.countP_eq_zero.mpr (fun x hx => by
            simp only [decide_eq_true_eq]
            intro e
            exact hnotmem (e ▸ hx))
        rw [hz]
        simp
      · rw [requestProxy_queue_of_new now1 g s st p1 hc]
        unfold queueCountFp
        rw [(perm_sortBy _ _).countP_eq, List.countP_append]
        unfold queueCountFp at hq0
        rw [hq0]
        simp
      · intro hcc
        exact absurd hcc (by simp [hc])

unseal Rat.add Rat.mul Rat.sub Rat.inv Rat.ofScientific in
/-- C3 witness: two requests on a fresh generator leave one record and
one queue entry for the fingerprint. -/
theorem requestProxy_idempotent_witness :
    registryCountKey
        (requestProxy 1 (requestProxy 0 (ProxyGenerator.defaultOf ⟨"/tmp", true⟩)
            "a.mp4" ProxySettings.default 5) "a.mp4" ProxySettings.default 9).proxy_registry
        (generateProxyId "a.mp4" ProxySettings.default) = 1 ∧
    queueCountFp
        (requestProxy 1 (requestProxy 0 (ProxyGenerator.defaultOf ⟨"/tmp", true⟩)
            "a.mp4" ProxySettings.default 5) "a.mp4" ProxySettings.default 9).generation_queue
        (generateProxyId "a.mp4" ProxySettings.default) ≤ 1 :=
  ⟨(requestProxy_idempotent (ProxyGenerator.defaultOf ⟨"/tmp", true⟩) "a.mp4"
      ProxySettings.default 5 9 0 1 (by decide) (by decide) (by decide)).1,
    (requestProxy_idempotent (ProxyGenerator.defaultOf ⟨"/tmp", true⟩) "a.mp4"
      ProxySettings.default 5 9 0 1 (by decide) (by decide) (by decide)).2.1⟩

/-! ## C9: terminal state written after the transcode exits -/

/-- C9: after the transcode for a popped job finishes, its record
reaches exactly one of two terminal states: on process success with an
existing output file of size above zero the record becomes ready with
progress 1 and that file size; on a failed process, a missing file or
an empty file the record becomes not ready with progress 0 and size 0.
The worker step never enqueues anything, so no retry is scheduled. -/
theorem generateProxyFile_terminal (env : WorkerEnv) (req : ProxyRequest)
    (registry : List (String × ProxyInfo)) (info : ProxyInfo)
    (havail : env.ffmpeg_available = true)
    (hreg : lookupAssoc (generateProxyId req.video_path req.proxy_settings) registry =
      some info) :
    (∀ n : Nat, env.ffmpeg_success = true → env.fs info.proxy_path = some n → 0 < n →
      lookupAssoc (generateProxyId req.video_path req.proxy_settings)
          (generateProxyFile env req registry) =
        some { info with is_ready := true, generation_progress := 1, file_size := n }) ∧
    ((env.ffmpeg_success = false ∨ env.fs info.proxy_path = none ∨
        env.fs info.proxy_path = some 0) →
      lookupAssoc (generateProxyId req.video_path req.proxy_settings)
          (generateProxyFile env req registry) =
        some { info with is_ready := false, generation_progress := 0, file_size := 0 }) ∧
    (∀ g : ProxyGenerator,
      (workerStep env g).generation_queue.length ≤ g.generation_queue.length) := by
  refine ⟨?_, ?_, ?_⟩
  · intro n hsucc hfs hn
    have hd : decide (0 < n) = true := decide_eq_true hn
    simp [generateProxyFile, havail, hreg, hsucc, hfs, lookupAssoc_insertAssoc_self, hd, hn]
  · intro hfail
    rcases hfail with hf | hf | hf
    · simp [generateProxyFile, havail, hreg, hf, lookupAssoc_insertAssoc_self]
    · simp [generateProxyFile, havail, hreg, hf, lookupAssoc_insertAssoc_self]
    · simp [generateProxyFile, havail, hreg, hf, lookupAssoc_insertAssoc_self]
  · intro g
    cases hrun : g.worker_running with
    | false => simp [workerStep, hrun]
    | true =>
        cases hq : g.generation_queue.getLast? with
        | none => simp [workerStep, hrun, queuePop, hq]
        | some r =>
            simp only [workerStep, hrun, queuePop, hq, Bool.not_true, Bool.false_eq_true,
              if_false, List.length_dropLast]
            omega

unseal Rat.add Rat.mul Rat.sub Rat.inv Rat.ofScientific in
/-- C9 witness: a successful transcode of a pending record with an
output file of 777 bytes marks it ready with progress 1 and size 777. -/
theorem generateProxyFile_terminal_witness :
    lookupAssoc (generateProxyId "a.mp4" ProxySettings.default)
      (generateProxyFile ⟨true, true, fun _ => some 777⟩
        ⟨"a.mp4", ProxySettings.default, 5⟩
        [(generateProxyId "a.mp4" ProxySettings.default,
          pendingInfo 0 "/t" "a.mp4" ProxySettings.default)]) =
    some { pendingInfo 0 "/t" "a.mp4" ProxySettings.default with
           is_ready := true, generation_progress := 1, file_size := 777 } :=
  (generateProxyFile_terminal ⟨true, true, fun _ => some 777⟩
    ⟨"a.mp4", ProxySettings.default, 5⟩
    [(generateProxyId "a.mp4" ProxySettings.default,
      pendingInfo 0 "/t" "a.mp4" ProxySettings.default)]
    (pendingInfo 0 "/t" "a.mp4" ProxySettings.default) rfl
    (by simp [lookupAssoc])).1 777 rfl rfl (by decide)

/-! ## Frame cache lemmas -/

theorem mem_foldl_removeAssoc {κ ν β : Type} [DecidableEq κ] (f : β → κ) :
    ∀ (l : List β) (m : List (κ × ν)) (kv : κ × ν),
      kv ∈ l.foldl (fun acc b => removeAssoc (f b) acc) m ↔
        kv ∈ m ∧ kv.1 ∉ l.map f := by
  intro l
  induction l with
  | nil =>
      intro m kv
      simp
  | cons b t ih =>
      intro m kv
      rw [List.foldl_cons, ih]
      simp only [removeAssoc, List.mem_filter, decide_eq_true_eq, List.map_cons,
        List.mem_cons, not_or]
      tauto

theorem sublist_foldl_removeAssoc {κ ν β : Type} [DecidableEq κ] (f : β → κ) :
    ∀ (l : List β) (m : List (κ × ν)),
      List.Sublist (l.foldl (fun acc b => removeAssoc (f b) acc) m) m := by
  intro l
  induction l with
  | nil =>
      intro m
      exact List.Sublist.refl m
  | cons b t ih =>
      intro m
      exact (ih (removeAssoc (f b) m)).trans (List.filter_sublist m)

theorem foldl_removeAssoc_eq_filter {κ ν β : Type} [DecidableEq κ] (f : β → κ) :
    ∀ (l : List β) (m : List (κ × ν)),
      l.foldl (fun acc b => removeAssoc (f b) acc) m =
        m.filter (fun kv => decide (kv.1 ∉ l.map f)) := by
  intro l
  induction l with
  | nil =>
      intro m
      simp
  | cons b t ih =>
      intro m
      rw [List.foldl_cons, ih]
      show (m.filter (fun kv => decide (kv.1 ≠ f b))).filter
          (fun kv => decide (kv.1 ∉ t.map f)) = _
      rw [List.filter_filter]
      apply List.filter_congr
      intro kv _
      simp [List.mem_cons, not_or, Bool.and_comm]

theorem countP_mem_add_not_mem {κ ν : Type} [DecidableEq κ] (m : List (κ × ν)) (K : List κ) :
    m.countP (fun kv => decide (kv.1 ∈ K)) + m.countP (fun kv => decide (kv.1 ∉ K)) =
      m.length := by
  induction m with
  | nil => simp
  | cons kv t ih =>
      by_cases h : kv.1 ∈ K
      · rw [List.countP_cons_of_pos _ _ (by simpa using h),
          List.countP_cons_of_neg _ _ (by simpa using h)]
        simp only [List.length_cons]
        omega
      · rw [List.countP_cons_of_neg _ _ (by simpa using h),
          List.countP_cons_of_pos _ _ (by simpa using h)]
        simp only [List.length_cons]
        omega

theorem countP_key_mem_eq_length {κ ν : Type} [DecidableEq κ] (m : List (κ × ν)) (K : List κ)
    (hm : (m.map Prod.fst).Nodup) (hK : K.Nodup)
    (hsub : ∀ x ∈ K, x ∈ m.map Prod.fst) :
    m.countP (fun kv => decide (kv.1 ∈ K)) = K.length := by
  have h1 : m.countP (fun kv => decide (kv.1 ∈ K)) =
      (m.map Prod.fst).countP (fun x => decide (x ∈ K)) := by
    rw [List.countP_map]
    rfl
  rw [h1, List.countP_eq_length_filter]
  have hperm : List.Perm ((m.map Prod.fst).filter (fun x => decide (x ∈ K))) K := by
    apply List.perm_iff_count.mpr
    intro a
    by_cases ha : a ∈ K
    · have hmem : a ∈ (m.map Prod.fst).filter (fun x => decide (x ∈ K)) :=
        List.mem_filter.mpr ⟨hsub a ha, by simpa using ha⟩
      rw [List.count_eq_one_of_mem (hm.filter _) hmem, List.count_eq_one_of_mem hK ha]
    · have hmem : a ∉ (m.map Prod.fst).filter (fun x => decide (x ∈ K)) := by
        intro hc
        exact ha (by simpa using (List.mem_filter.mp hc).2)
      rw [List.count_eq_zero_of_not_mem hmem, List.count_eq_zero_of_not_mem ha]
  exact hperm.length_eq

/-- Removing a list of distinct present keys shrinks the map by exactly
that many bindings. -/
theorem length_foldl_removeAssoc {κ ν β : Type} [DecidableEq κ] (f : β → κ) (l : List β)
    (m : List (κ × ν)) (hm : (m.map Prod.fst).Nodup) (hK : (l.map f).Nodup)
    (hsub : ∀ x ∈ l.map f, x ∈ m.map Prod.fst) :
    (l.foldl (fun acc b => removeAssoc (f b) acc) m).length = m.length - (l.map f).length := by
  rw [foldl_removeAssoc_eq_filter, ← List.countP_eq_length_filter]
  have hadd := countP_mem_add_not_mem m (l.map f)
  have hcount := countP_key_mem_eq_length m (l.map f) hm hK hsub
  omega

/-- Two bindings of a map with unique keys and the same key coincide. -/
theorem entry_pair_unique {κ ν : Type} [DecidableEq κ] {m : List (κ × ν)}
    (hn : (m.map Prod.fst).Nodup) {u kv : κ × ν} (hu : u ∈ m) (hkv : kv ∈ m)
    (he : u.1 = kv.1) : u = kv := by
  have h1 : lookupAssoc u.1 m = some u.2 := lookupAssoc_of_mem_nodup hn hu
  have h2 : lookupAssoc kv.1 m = some kv.2 := lookupAssoc_of_mem_nodup hn hkv
  rw [he, h2] at h1
  exact Prod.ext he (Option.some.inj h1).symm

/-- In the access time sort, everything kept in the prefix is at most
everything in the suffix. -/
theorem sortBy_take_le_drop {κ : Type} (entries : List (κ × Nat)) (n : Nat)
    {p q : κ × Nat}
    (hp : p ∈ (sortBy (fun a b => decide (a.2 ≤ b.2)) entries).take n)
    (hq : q ∈ (sortBy (fun a b => decide (a.2 ≤ b.2)) entries).drop n) :
    p.2 ≤ q.2 := by
  have hpw := pairwise_sortBy (fun a b : κ × Nat => decide (a.2 ≤ b.2))
    (fun a b c hab hbc => by
      simp only [decide_eq_true_eq] at hab hbc ⊢
      omega)
    (fun a b => by
      rcases Nat.le_total a.2 b.2 with h | h
      · exact Or.inl (decide_eq_true h)
      · exact Or.inr (decide_eq_true h))
    entries
  rw [← List.take_append_drop n (sortBy (fun a b => decide (a.2 ≤ b.2)) entries)] at hpw
  have h := (List.pairwise_append.mp hpw).2.2 p hp q hq
  simpa using h

/-- The cache field of add_frame, spelled out. -/
theorem addFrame_cache_def (now : Nat) (c : FrameCache) (path : Str) (time : ℚ)
    (frame : Frame) :
    (addFrame now c path time frame).cache =
      (if (insertAssoc (makeCacheKey path time)
            { frame := frame, last_accessed := now, is_loading := false } c.cache).length >
          c.max_cache_size then
        ((sortBy (fun a b => decide (a.2 ≤ b.2))
            ((insertAssoc (makeCacheKey path time)
                { frame := frame, last_accessed := now, is_loading := false } c.cache).map
              (fun kv => (kv.1, kv.2.last_accessed)))).take
          (c.max_cache_size / 5)).foldl (fun m kb => removeAssoc kb.1 m)
          (insertAssoc (makeCacheKey path time)
            { frame := frame, last_accessed := now, is_loading := false } c.cache)
      else
        insertAssoc (makeCacheKey path time)
          { frame := frame, last_accessed := now, is_loading := false } c.cache) := by
  unfold addFrame
  dsimp only
  split <;> rfl

theorem addFrame_max_cache_size (now : Nat) (c : FrameCache) (path : Str) (time : ℚ)
    (frame : Frame) :
    (addFrame now c path time frame).max_cache_size = c.max_cache_size := by
  unfold addFrame
  dsimp only
  split <;> rfl

/-- Every entry of the cache after add_frame is the new entry or an old
one. -/
theorem mem_addFrame {now : Nat} {c : FrameCache} {path : Str} {time : ℚ} {frame : Frame}
    {kv : Str × CachedFrame} (h : kv ∈ (addFrame now c path time frame).cache) :
    kv = (makeCacheKey path time,
      { frame := frame, last_accessed := now, is_loading := false }) ∨ kv ∈ c.cache := by
  rw [addFrame_cache_def] at h
  split_ifs at h with hlen
  · exact mem_insertAssoc ((mem_foldl_removeAssoc Prod.fst _ _ kv).mp h).1
  · exact mem_insertAssoc h

/-- The access time pairs of a cache, as sorted by the eviction pass. -/
theorem mem_entries_iff {cache1 : List (Str × CachedFrame)} {p : Str × Nat} :
    p ∈ cache1.map (fun u => (u.1, u.2.last_accessed)) ↔
      ∃ u ∈ cache1, (u.1, u.2.last_accessed) = p := by
  rw [List.mem_map]

/-- An entry whose access time is strictly above every other entry is
never among the first rc keys of the access time sort. -/
theorem evict_keeps_unique_max {cache1 : List (Str × CachedFrame)} {key : Str}
    {newcf : CachedFrame} {rc : Nat}
    (hn1 : (cache1.map Prod.fst).Nodup)
    (hself : (key, newcf) ∈ cache1)
    (hmax : ∀ kv ∈ cache1, kv.1 ≠ key → kv.2.last_accessed < newcf.last_accessed)
    (hrc : rc < cache1.length) :
    key ∉ ((sortBy (fun a b => decide (a.2 ≤ b.2))
        (cache1.map (fun u => (u.1, u.2.last_accessed)))).take rc).map Prod.fst := by
  intro hk
  have hperm : List.Perm
      (sortBy (fun a b => decide (a.2 ≤ b.2)) (cache1.map (fun u => (u.1, u.2.last_accessed))))
      (cache1.map (fun u => (u.1, u.2.last_accessed))) := perm_sortBy _ _
  have hlensorted :
      (sortBy (fun a b => decide (a.2 ≤ b.2))
        (cache1.map (fun u => (u.1, u.2.last_accessed)))).length = cache1.length := by
    rw [hperm.length_eq, List.length_map]
  obtain ⟨p, hp, hp1⟩ := List.mem_map.mp hk
  have hpent : p ∈ cache1.map (fun u => (u.1, u.2.last_accessed)) :=
    hperm.mem_iff.mp (List.mem_of_mem_take hp)
  obtain ⟨u, hu, hue⟩ := mem_entries_iff.mp hpent
  have hu1 : u.1 = key := by
    have : (u.1, u.2.last_accessed).1 = p.1 := by rw [hue]
    simpa [hp1] using this
  have huq : u = (key, newcf) := entry_pair_unique hn1 hu hself (by rw [hu1])
  have hpval : p = (key, newcf.last_accessed) := by
    rw [← hue, huq]
  have hkeysent : (cache1.map (fun u => (u.1, u.2.last_accessed))).map Prod.fst =
      cache1.map Prod.fst := by
    rw [List.map_map]
    rfl
  have hnent : (cache1.map (fun u => (u.1, u.2.last_accessed))).Nodup :=
    List.Nodup.of_map Prod.fst (by rw [hkeysent]; exact hn1)
  have hnsorted :
      (sortBy (fun a b => decide (a.2 ≤ b.2))
        (cache1.map (fun u => (u.1, u.2.last_accessed)))).Nodup :=
    hperm.nodup_iff.mpr hnent
  have hdropne : (sortBy (fun a b => decide (a.2 ≤ b.2))
      (cache1.map (fun u => (u.1, u.2.last_accessed)))).drop rc ≠ [] := by
    intro he
    have h2 := congrArg List.length he
    rw [List.length_drop, hlensorted] at h2
    simp only [List.length_nil] at h2
    omega
  obtain ⟨q, hq⟩ := List.exists_mem_of_ne_nil _ hdropne
  have hle : p.2 ≤ q.2 := sortBy_take_le_drop _ rc hp hq
  have hqnep : q ≠ p := by
    intro he
    have hnd := hnsorted
    rw [← List.take_append_drop rc (sortBy (fun a b => decide (a.2 ≤ b.2))
      (cache1.map (fun u => (u.1, u.2.last_accessed))))] at hnd
    exact (List.disjoint_of_nodup_append hnd) hp (he ▸ hq)
  have hqent : q ∈ cache1.map (fun u => (u.1, u.2.last_accessed)) :=
    hperm.mem_iff.mp (List.mem_of_mem_drop hq)
  obtain ⟨u2, hu2, hu2e⟩ := mem_entries_iff.mp hqent
  by_cases h2 : u2.1 = key
  · have hu2q : u2 = (key, newcf) := entry_pair_unique hn1 hu2 hself (by rw [h2])
    apply hqnep
    rw [← hu2e, hu2q, hpval]
  · have hlt : u2.2.last_accessed < newcf.last_accessed := hmax u2 hu2 h2
    have hq2 : q.2 = u2.2.last_accessed := by rw [← hu2e]
    have hp2 : p.2 = newcf.last_accessed := by rw [hpval]
    omega

/-- Every key removed by the eviction pass has an access time at most
that of every key it keeps. -/
theorem evict_removes_oldest {cache1 : List (Str × CachedFrame)} {rc : Nat}
    (hn1 : (cache1.map Prod.fst).Nodup)
    {kv kv2 : Str × CachedFrame} (hkv : kv ∈ cache1) (hkv2 : kv2 ∈ cache1)
    (hin : kv.1 ∈ ((sortBy (fun a b => decide (a.2 ≤ b.2))
        (cache1.map (fun u => (u.1, u.2.last_accessed)))).take rc).map Prod.fst)
    (hout : kv2.1 ∉ ((sortBy (fun a b => decide (a.2 ≤ b.2))
        (cache1.map (fun u => (u.1, u.2.last_accessed)))).take rc).map Prod.fst) :
    kv.2.last_accessed ≤ kv2.2.last_accessed := by
  have hperm : List.Perm
      (sortBy (fun a b => decide (a.2 ≤ b.2)) (cache1.map (fun u => (u.1, u.2.last_accessed))))
      (cache1.map (fun u => (u.1, u.2.last_accessed))) := perm_sortBy _ _
  obtain ⟨p, hp, hp1⟩ := List.mem_map.mp hin
  have hpent : p ∈ cache1.map (fun u => (u.1, u.2.last_accessed)) :=
    hperm.mem_iff.mp (List.mem_of_mem_take hp)
  obtain ⟨u, hu, hue⟩ := mem_entries_iff.mp hpent
  have hu1 : u.1 = kv.1 := by
    have h2 : (u.1, u.2.last_accessed).1 = p.1 := by rw [hue]
    simpa [hp1] using h2
  have huq : u = kv := entry_pair_unique hn1 hu hkv hu1
  have hpval : p = (kv.1, kv.2.last_accessed) := by rw [← hue, huq]
  have hp2ent : (kv2.1, kv2.2.last_accessed) ∈
      cache1.map (fun u => (u.1, u.2.last_accessed)) :=
    List.mem_map.mpr ⟨kv2, hkv2, rfl⟩
  have hp2sorted : (kv2.1, kv2.2.last_accessed) ∈
      sortBy (fun a b => decide (a.2 ≤ b.2)) (cache1.map (fun u => (u.1, u.2.last_accessed))) :=
    hperm.mem_iff.mpr hp2ent
  rw [← List.take_append_drop rc (sortBy (fun a b => decide (a.2 ≤ b.2))
    (cache1.map (fun u => (u.1, u.2.last_accessed))))] at hp2sorted
  rcases List.mem_append.mp hp2sorted with h2 | h2
  · exact absurd (List.mem_map.mpr ⟨(kv2.1, kv2.2.last_accessed), h2, rfl⟩) hout
  · have hle : p.2 ≤ (kv2.1, kv2.2.last_accessed).2 := sortBy_take_le_drop _ rc hp h2
    rw [hpval] at hle
    exact hle

/-- After add_frame with a fresh clock value, the inserted entry is in
the cache (it survives eviction) and key uniqueness is preserved. -/
theorem addFrame_lookup_fresh (now : Nat) (c : FrameCache) (path : Str) (time : ℚ)
    (frame : Frame)
    (hnodup : (c.cache.map Prod.fst).Nodup)
    (hfresh : ∀ kv ∈ c.cache, kv.2.last_accessed < now) :
    lookupAssoc (makeCacheKey path time) (addFrame now c path time frame).cache =
      some { frame := frame, last_accessed := now, is_loading := false } ∧
    ((addFrame now c path time frame).cache.map Prod.fst).Nodup := by
  have hn1 : ((insertAssoc (makeCacheKey path time)
      { frame := frame, last_accessed := now, is_loading := false } c.cache).map
        Prod.fst).Nodup :=
    nodupKeys_insertAssoc _ _ hnodup
  have hself : (makeCacheKey path time,
      ({ frame := frame, last_accessed := now, is_loading := false } : CachedFrame)) ∈
      insertAssoc (makeCacheKey path time)
        { frame := frame, last_accessed := now, is_loading := false } c.cache :=
    self_mem_insertAssoc _ _ _
  rw [addFrame_cache_def]
  split_ifs with hlen
  · have hmax : ∀ kv ∈ insertAssoc (makeCacheKey path time)
        { frame := frame, last_accessed := now, is_loading := false } c.cache,
        kv.1 ≠ makeCacheKey path time →
        kv.2.last_accessed <
          ({ frame := frame, last_accessed := now, is_loading := false } : CachedFrame).last_accessed := by
      intro kv hkv hne
      rcases mem_insertAssoc hkv with h | h
      · exact absurd (by rw [h]) hne
      · exact hfresh kv h
    have hrc : c.max_cache_size / 5 < (insertAssoc (makeCacheKey path time)
        { frame := frame, last_accessed := now, is_loading := false } c.cache).length := by
      have h2 := Nat.div_le_self c.max_cache_size 5
      omega
    have hknot := evict_keeps_unique_max hn1 hself hmax hrc
    have hfinalmem := (mem_foldl_removeAssoc Prod.fst _ _ _).mpr ⟨hself, hknot⟩
    have hsubl := sublist_foldl_removeAssoc Prod.fst
      (((sortBy (fun a b => decide (a.2 ≤ b.2))
          ((insertAssoc (makeCacheKey path time)
              { frame := frame, last_accessed := now, is_loading := false } c.cache).map
            (fun kv => (kv.1, kv.2.last_accessed)))).take (c.max_cache_size / 5)))
      (insertAssoc (makeCacheKey path time)
        { frame := frame, last_accessed := now, is_loading := false } c.cache)
    have hnfinal := (hsubl.map Prod.fst).nodup hn1
    exact ⟨lookupAssoc_of_mem_nodup hnfinal hfinalmem, hnfinal⟩
  · exact ⟨lookupAssoc_insertAssoc_self _ _ _, hn1⟩

/-! ## C7: put then get round trip through the quantized key -/

/-- C7: after add_frame of F at time t with a fresh clock, get_frame at
any time that rounds to the same tenth of a second returns F itself
(all fields equal) through the exact match branch, and the hit
refreshes the last access time of the entry to the time of the get. -/
theorem putGet_roundtrip (c : FrameCache) (s : Str) (t t2 : ℚ) (F : Frame) (now now2 : Nat)
    (hnodup : (c.cache.map Prod.fst).Nodup)
    (hfresh : ∀ kv ∈ c.cache, kv.2.last_accessed < now)
    (hround : rustRound (t * 10) = rustRound (t2 * 10)) :
    (getFrame now2 (addFrame now c s t F) s t2).1 = some F ∧
    lookupAssoc (makeCacheKey s t2) (getFrame now2 (addFrame now c s t F) s t2).2.cache =
      some { frame := F, last_accessed := now2, is_loading := false } := by
  have hkey : makeCacheKey s t2 = makeCacheKey s t := by
    unfold makeCacheKey
    rw [hround]
  have h1 := addFrame_lookup_fresh now c s t F hnodup hfresh
  have hl : lookupAssoc (makeCacheKey s t2) (addFrame now c s t F).cache =
      some { frame := F, last_accessed := now, is_loading := false } := by
    rw [hkey]
    exact h1.1
  constructor
  · simp [getFrame, hl]
  · simp [getFrame, hl, lookupAssoc_insertAssoc_self]

unseal Rat.add Rat.mul Rat.sub Rat.inv Rat.ofScientific in
/-- C7 witness: put at 2.03 then get at 2.0 returns the same frame and
refreshes the access time. -/
theorem putGet_roundtrip_witness :
    (getFrame 9 (addFrame 0 FrameCache.new "v".toList 2.03 frameA) "v".toList 2).1 =
      some frameA ∧
    lookupAssoc (makeCacheKey "v".toList 2)
        (getFrame 9 (addFrame 0 FrameCache.new "v".toList 2.03 frameA) "v".toList 2).2.cache =
      some { frame := frameA, last_accessed := 9, is_loading := false } :=
  putGet_roundtrip FrameCache.new "v".toList 2.03 2 frameA 0 9 (by decide) (by decide)
    (by decide)

/-! ## C6: capacity bound and eviction of the oldest entries -/

/-- C6: starting from a cache within its capacity (the constructed
capacity is 100), add_frame leaves the entry count within the capacity
again; when the insertion pushes the count above the capacity, the pass
removes exactly max_cache_size / 5 entries (20, one fifth of the
capacity), and every evicted entry has a last access time at most that
of every surviving entry (oldest first, ranked by last access). -/
theorem addFrame_capacity (c : FrameCache) (s : Str) (t : ℚ) (F : Frame) (now : Nat)
    (hnodup : (c.cache.map Prod.fst).Nodup)
    (hcap : c.cache.length ≤ c.max_cache_size)
    (hmax : c.max_cache_size = 100) :
    (addFrame now c s t F).cache.length ≤ c.max_cache_size ∧
    ((insertAssoc (makeCacheKey s t) { frame := F, last_accessed := now, is_loading := false }
        c.cache).length > c.max_cache_size →
      (addFrame now c s t F).cache.length =
        (insertAssoc (makeCacheKey s t)
          { frame := F, last_accessed := now, is_loading := false } c.cache).length -
          c.max_cache_size / 5 ∧
      (∀ kv ∈ insertAssoc (makeCacheKey s t)
          { frame := F, last_accessed := now, is_loading := false } c.cache,
        kv ∉ (addFrame now c s t F).cache →
        ∀ kv2 ∈ (addFrame now c s t F).cache,
          kv.2.last_accessed ≤ kv2.2.last_accessed)) := by
  have hn1 : ((insertAssoc (makeCacheKey s t)
      { frame := F, last_accessed := now, is_loading := false } c.cache).map Prod.fst).Nodup :=
    nodupKeys_insertAssoc _ _ hnodup
  have hlen1 : (insertAssoc (makeCacheKey s t)
      { frame := F, last_accessed := now, is_loading := false } c.cache).length ≤
      c.max_cache_size + 1 := by
    rw [length_insertAssoc]
    split_ifs <;> omega
  by_cases hlen : (insertAssoc (makeCacheKey s t)
      { frame := F, last_accessed := now, is_loading := false } c.cache).length >
      c.max_cache_size
  · have hcachedef : (addFrame now c s t F).cache =
        (((sortBy (fun a b => decide (a.2 ≤ b.2))
            ((insertAssoc (makeCacheKey s t)
                { frame := F, last_accessed := now, is_loading := false } c.cache).map
              (fun kv => (kv.1, kv.2.last_accessed)))).take
          (c.max_cache_size / 5)).foldl (fun m kb => removeAssoc kb.1 m)
          (insertAssoc (makeCacheKey s t)
            { frame := F, last_accessed := now, is_loading := false } c.cache)) := by
      rw [addFrame_cache_def, if_pos hlen]
    have hpermkeys : List.Perm
        ((sortBy (fun a b => decide (a.2 ≤ b.2))
          ((insertAssoc (makeCacheKey s t)
              { frame := F, last_accessed := now, is_loading := false } c.cache).map
            (fun kv => (kv.1, kv.2.last_accessed)))).map Prod.fst)
        ((insertAssoc (makeCacheKey s t)
            { frame := F, last_accessed := now, is_loading := false } c.cache).map
          Prod.fst) := by
      have h2 := (perm_sortBy (fun a b : Str × Nat => decide (a.2 ≤ b.2))
        ((insertAssoc (makeCacheKey s t)
            { frame := F, last_accessed := now, is_loading := false } c.cache).map
          (fun kv => (kv.1, kv.2.last_accessed)))).map Prod.fst
      rw [List.map_map] at h2
      exact h2
    have hsortlen : (sortBy (fun a b => decide (a.2 ≤ b.2))
        ((insertAssoc (makeCacheKey s t)
            { frame := F, last_accessed := now, is_loading := false } c.cache).map
          (fun kv => (kv.1, kv.2.last_accessed)))).length =
        (insertAssoc (makeCacheKey s t)
          { frame := F, last_accessed := now, is_loading := false } c.cache).length := by
      rw [(perm_sortBy _ _).length_eq, List.length_map]
    have hrcle : c.max_cache_size / 5 ≤ (sortBy (fun a b => decide (a.2 ≤ b.2))
        ((insertAssoc (makeCacheKey s t)
            { frame := F, last_accessed := now, is_loading := false } c.cache).map
          (fun kv => (kv.1, kv.2.last_accessed)))).length := by
      rw [hsortlen]
      have h2 := Nat.div_le_self c.max_cache_size 5
      omega
    have hKeq : (((sortBy (fun a b => decide (a.2 ≤ b.2))
        ((insertAssoc (makeCacheKey s t)
            { frame := F, last_accessed := now, is_loading := false } c.cache).map
          (fun kv => (kv.1, kv.2.last_accessed)))).take (c.max_cache_size / 5)).map Prod.fst) =
        ((sortBy (fun a b => decide (a.2 ≤ b.2))
          ((insertAssoc (makeCacheKey s t)
              { frame := F, last_accessed := now, is_loading := false } c.cache).map
            (fun kv => (kv.1, kv.2.last_accessed)))).map Prod.fst).take
          (c.max_cache_size / 5) := by
      rw [List.map_take]
    have hKlen : (((sortBy (fun a b => decide (a.2 ≤ b.2))
        ((insertAssoc (makeCacheKey s t)
            { frame := F, last_accessed := now, is_loading := false } c.cache).map
          (fun kv => (kv.1, kv.2.last_accessed)))).take (c.max_cache_size / 5)).map
          Prod.fst).length = c.max_cache_size / 5 := by
      rw [List.length_map, List.length_take]
      omega
    have hKnodup : (((sortBy (fun a b => decide (a.2 ≤ b.2))
        ((insertAssoc (makeCacheKey s t)
            { frame := F, last_accessed := now, is_loading := false } c.cache).map
          (fun kv => (kv.1, kv.2.last_accessed)))).take (c.max_cache_size / 5)).map
          Prod.fst).Nodup := by
      rw [hKeq]
      exact (List.take_sublist _ _).nodup (hpermkeys.nodup_iff.mpr hn1)
    have hKsub : ∀ x ∈ ((sortBy (fun a b => decide (a.2 ≤ b.2))
        ((insertAssoc (makeCacheKey s t)
            { frame := F, last_accessed := now, is_loading := false } c.cache).map
          (fun kv => (kv.1, kv.2.last_accessed)))).take (c.max_cache_size / 5)).map Prod.fst,
        x ∈ (insertAssoc (makeCacheKey s t)
          { frame := F, last_accessed := now, is_loading := false } c.cache).map Prod.fst := by
      intro x hx
      rw [hKeq] at hx
      exact hpermkeys.mem_iff.mp (List.mem_of_mem_take hx)
    have hflen : (addFrame now c s t F).cache.length =
        (insertAssoc (makeCacheKey s t)
          { frame := F, last_accessed := now, is_loading := false } c.cache).length -
          c.max_cache_size / 5 := by
      rw [hcachedef]
      have h2 := length_foldl_removeAssoc Prod.fst
        ((sortBy (fun a b => decide (a.2 ≤ b.2))
          ((insertAssoc (makeCacheKey s t)
              { frame := F, last_accessed := now, is_loading := false } c.cache).map
            (fun kv => (kv.1, kv.2.last_accessed)))).take (c.max_cache_size / 5))
        (insertAssoc (makeCacheKey s t)
          { frame := F, last_accessed := now, is_loading := false } c.cache)
        hn1 hKnodup hKsub
      rw [hKlen] at h2
      exact h2
    refine ⟨?_, fun _ => ⟨hflen, ?_⟩⟩
    · rw [hflen]
      omega
    · intro kv hkv hnot kv2 hkv2
      rw [hcachedef] at hnot hkv2
      have hkv2m := (mem_foldl_removeAssoc Prod.fst _ _ kv2).mp hkv2
      have hin : kv.1 ∈ (((sortBy (fun a b => decide (a.2 ≤ b.2))
          ((insertAssoc (makeCacheKey s t)
              { frame := F, last_accessed := now, is_loading := false } c.cache).map
            (fun kv => (kv.1, kv.2.last_accessed)))).take (c.max_cache_size / 5)).map
            Prod.fst) := by
        by_contra hninK
        exact hnot ((mem_foldl_removeAssoc Prod.fst _ _ kv).mpr ⟨hkv, hninK⟩)
      exact evict_removes_oldest hn1 hkv hkv2m.1 hin hkv2m.2
  · have hcachedef : (addFrame now c s t F).cache =
        insertAssoc (makeCacheKey s t)
          { frame := F, last_accessed := now, is_loading := false } c.cache := by
      rw [addFrame_cache_def, if_neg hlen]
    refine ⟨?_, fun h2 => absurd h2 hlen⟩
    rw [hcachedef]
    omega

unseal Rat.add Rat.mul Rat.sub Rat.inv Rat.ofScientific in
/-- C6 witness: a small cache within capacity stays within capacity. -/
theorem addFrame_capacity_witness :
    (addFrame 3 (addFrame 0 FrameCache.new "v".toList 1 frameA) "v".toList 2
        frameB).cache.length ≤
      (addFrame 0 FrameCache.new "v".toList 1 frameA).max_cache_size :=
  (addFrame_capacity (addFrame 0 FrameCache.new "v".toList 1 frameA) "v".toList 2 frameB 3
    (by decide) (by decide) (by decide)).1

/-! ## Fallback scan lemmas -/

theorem bestOf_foldl_aux :
    ∀ (l : List (CachedFrame × ℚ)) (b : CachedFrame × ℚ),
      ∃ bd, l.foldl bestOfStep (some b) = some bd ∧ (bd = b ∨ bd ∈ l) ∧ bd.2 ≤ b.2 ∧
        ∀ cd ∈ l, bd.2 ≤ cd.2 := by
  intro l
  induction l with
  | nil =>
      intro b
      exact ⟨b, rfl, Or.inl rfl, le_refl _, by simp⟩
  | cons cd t ih =>
      intro b
      by_cases hlt : cd.2 < b.2
      · obtain ⟨bd, hbd, hmem, hle, hall⟩ := ih cd
        have hstep : List.foldl bestOfStep (some b) (cd :: t) =
            List.foldl bestOfStep (some cd) t := by
          rw [List.foldl_cons]
          congr 1
          simp [bestOfStep, hlt]
        refine ⟨bd, by rw [hstep]; exact hbd, ?_, hle.trans (le_of_lt hlt), ?_⟩
        · rcases hmem with rfl | h
          · exact Or.inr (List.mem_cons_self _ _)
          · exact Or.inr (List.mem_cons_of_mem _ h)
        · intro cd2 hcd2
          rcases List.mem_cons.mp hcd2 with rfl | h
          · exact hle
          · exact hall cd2 h
      · obtain ⟨bd, hbd, hmem, hle, hall⟩ := ih b
        have hstep : List.foldl bestOfStep (some b) (cd :: t) =
            List.foldl bestOfStep (some b) t := by
          rw [List.foldl_cons]
          congr 1
          simp [bestOfStep, hlt]
        refine ⟨bd, by rw [hstep]; exact hbd, ?_, hle, ?_⟩
        · rcases hmem with rfl | h
          · exact Or.inl rfl
          · exact Or.inr (List.mem_cons_of_mem _ h)
        · intro cd2 hcd2
          rcases List.mem_cons.mp hcd2 with rfl | h
          · exact hle.trans (not_lt.mp hlt)
          · exact hall cd2 h

theorem bestOf_eq_none {l : List (CachedFrame × ℚ)} (h : bestOf l = none) : l = [] := by
  cases l with
  | nil => rfl
  | cons c t =>
      exfalso
      obtain ⟨bd, hbd, _⟩ := bestOf_foldl_aux t c
      unfold bestOf at h
      rw [List.foldl_cons] at h
      have hz : bestOfStep none c = some c := rfl
      rw [hz, hbd] at h
      cases h

theorem bestOf_eq_some {l : List (CachedFrame × ℚ)} {bd : CachedFrame × ℚ}
    (h : bestOf l = some bd) : bd ∈ l ∧ ∀ cd ∈ l, bd.2 ≤ cd.2 := by
  cases l with
  | nil =>
      exfalso
      simp [bestOf] at h
  | cons c t =>
      obtain ⟨bd2, hbd2, hmem, hle, hall⟩ := bestOf_foldl_aux t c
      unfold bestOf at h
      rw [List.foldl_cons] at h
      have hz : bestOfStep none c = some c := rfl
      rw [hz, hbd2] at h
      obtain rfl : bd2 = bd := Option.some.inj h
      constructor
      · rcases hmem with rfl | h2
        · exact List.mem_cons_self _ _
        · exact List.mem_cons_of_mem _ h2
      · intro cd hcd
        rcases List.mem_cons.mp hcd with rfl | h2
        · exact hle
        · exact hall cd h2

/-- Every candidate of the fallback scan comes from a cache entry whose
key starts with the queried path. -/
theorem nearbyCandidates_mem {c : FrameCache} {path : Str} {t : ℚ} {cd : CachedFrame × ℚ}
    (h : cd ∈ nearbyCandidates c path t) :
    ∃ kv ∈ c.cache, path.isPrefixOf kv.1 = true ∧ cd.1 = kv.2 := by
  obtain ⟨kv, hkv, hfn⟩ := List.mem_filterMap.mp h
  refine ⟨kv, hkv, ?_⟩
  by_cases hcond : (path.isPrefixOf kv.1 && !kv.2.is_loading) = true
  · rw [if_pos hcond] at hfn
    have hcond2 : path.isPrefixOf kv.1 = true ∧ kv.2.is_loading = false := by
      simpa using hcond
    refine ⟨hcond2.1, ?_⟩
    cases harm : (splitOnChar ':' kv.1).get? 1 with
    | none =>
        rw [harm] at hfn
        cases hfn
    | some ts =>
        rw [harm] at hfn
        obtain ⟨q, _, he⟩ := Option.map_eq_some'.mp hfn
        rw [← he]
  · rw [if_neg hcond] at hfn
    cases hfn

/-- The characterization of find_nearby_frame: it returns a frame
exactly when some candidate is strictly within half a second, and then
the frame of a candidate at minimal distance. -/
theorem findNearbyFrame_spec (c : FrameCache) (path : Str) (t : ℚ) :
    (∀ f, findNearbyFrame c path t = some f →
      ∃ cd ∈ nearbyCandidates c path t, cd.1.frame = f ∧ cd.2 < 1/2 ∧
        ∀ cd2 ∈ nearbyCandidates c path t, cd.2 ≤ cd2.2) ∧
    (findNearbyFrame c path t = none →
      ∀ cd ∈ nearbyCandidates c path t, 1/2 ≤ cd.2) := by
  cases hb : bestOf (nearbyCandidates c path t) with
  | none =>
      have hnil := bestOf_eq_none hb
      constructor
      · intro f hf
        unfold findNearbyFrame at hf
        rw [hb] at hf
        cases hf
      · intro _ cd hcd
        rw [hnil] at hcd
        cases hcd
  | some bd =>
      obtain ⟨hmem, hmin⟩ := bestOf_eq_some hb
      have hval : findNearbyFrame c path t =
          if bd.2 < 1/2 then some bd.1.frame else none := by
        unfold findNearbyFrame
        rw [hb]
      constructor
      · intro f hf
        rw [hval] at hf
        split_ifs at hf with hlt
        exact ⟨bd, hmem, Option.some.inj hf, hlt, hmin⟩
      · intro hf cd hcd
        rw [hval] at hf
        split_ifs at hf with hlt
        exact le_trans (not_lt.mp hlt) (hmin cd hcd)

/-- Provenance of cache entries through a replay of add_frame calls. -/
theorem foldl_addFrame_provenance (ops : List PutOp) :
    ∀ (c : FrameCache) (kv : Str × CachedFrame),
      kv ∈ (ops.foldl (fun acc op => addFrame op.now acc op.video_path op.time op.frame)
          c).cache →
      kv ∈ c.cache ∨
        ∃ op ∈ ops, kv.1 = makeCacheKey op.video_path op.time ∧ kv.2.frame = op.frame := by
  induction ops with
  | nil =>
      intro c kv h
      exact Or.inl h
  | cons op t ih =>
      intro c kv h
      rw [List.foldl_cons] at h
      rcases ih _ kv h with h2 | h2
      · rcases mem_addFrame h2 with h3 | h3
        · refine Or.inr ⟨op, List.mem_cons_self _ _, ?_, ?_⟩
          · rw [h3]
          · rw [h3]
        · exact Or.inl h3
      · obtain ⟨op2, hop2, hp⟩ := h2
        exact Or.inr ⟨op2, List.mem_cons_of_mem _ hop2, hp⟩

theorem cacheOfPuts_provenance {ops : List PutOp} {kv : Str × CachedFrame}
    (h : kv ∈ (cacheOfPuts ops).cache) :
    ∃ op ∈ ops, kv.1 = makeCacheKey op.video_path op.time ∧ kv.2.frame = op.frame := by
  unfold cacheOfPuts at h
  rcases foldl_addFrame_provenance ops FrameCache.new kv h with h2 | h2
  · exact absurd h2 (List.not_mem_nil kv)
  · exact h2

/-! ## C2: source scoping of lookups -/

unseal Rat.add Rat.mul Rat.sub Rat.inv Rat.ofScientific in
/-- C2 counterexample: in a cache whose only entry was stored under
source ab, get_frame for the distinct source a at the same time returns
that frame, because the fallback scan matches keys by string prefix
rather than by the exact source identifier. -/
theorem getFrame_crosses_sources :
    (getFrame 1 (cacheOfPuts [⟨"ab".toList, 2, frameB, 0⟩]) "a".toList 2).1 = some frameB ∧
    ("ab".toList : Str) ≠ "a".toList := by decide

/-- C2 amended: the exact match is keyed by the exact source, and the
fallback considers exactly the entries whose full key string starts
with the queried source identifier; therefore, whenever no other put
source yields a key that starts with the queried identifier (in
particular whenever no other source identifier has it as a string
prefix), every frame returned for a source was stored under that
source. -/
theorem getFrame_source_scoped (ops : List PutOp) (s : Str) (t : ℚ) (now : Nat) (f : Frame)
    (hpre : ∀ op ∈ ops, op.video_path ≠ s →
      s.isPrefixOf (makeCacheKey op.video_path op.time) = false)
    (hres : (getFrame now (cacheOfPuts ops) s t).1 = some f) :
    ∃ op ∈ ops, op.video_path = s ∧ op.frame = f := by
  have hpfx : ∀ rest : Str, s.isPrefixOf (s ++ rest) = true := fun rest =>
    List.isPrefixOf_iff_prefix.mpr ⟨rest, rfl⟩
  cases hl : lookupAssoc (makeCacheKey s t) (cacheOfPuts ops).cache with
  | some cf =>
      have hfst : (getFrame now (cacheOfPuts ops) s t).1 = some cf.frame := by
        simp [getFrame, hl]
      rw [hfst] at hres
      have hfeq : cf.frame = f := Option.some.inj hres
      have hmem : (makeCacheKey s t, cf) ∈ (cacheOfPuts ops).cache := mem_of_lookupAssoc hl
      obtain ⟨op, hop, hkey, hframe⟩ := cacheOfPuts_provenance hmem
      by_cases hps : op.video_path = s
      · exact ⟨op, hop, hps, hframe.symm.trans hfeq⟩
      · exfalso
        have h2 := hpre op hop hps
        rw [← hkey] at h2
        unfold makeCacheKey at h2
        rw [hpfx] at h2
        exact absurd h2 (by decide)
  | none =>
      have hspec := (findNearbyFrame_spec (cacheOfPuts ops) s t).1 f (by
        have hg : (getFrame now (cacheOfPuts ops) s t).1 = findNearbyFrame (cacheOfPuts ops) s t := by
          simp [getFrame, hl]
        rw [← hg]
        exact hres)
      obtain ⟨cd, hcd, hframe, _, _⟩ := hspec
      obtain ⟨kv, hkv, hpref, hcd1⟩ := nearbyCandidates_mem hcd
      obtain ⟨op, hop, hkey, hfr⟩ := cacheOfPuts_provenance hkv
      by_cases hps : op.video_path = s
      · refine ⟨op, hop, hps, ?_⟩
        rw [← hfr, ← hcd1]
        exact hframe
      · exfalso
        have h2 := hpre op hop hps
        rw [← hkey] at h2
        exact absurd (hpref.symm.trans h2) (by decide)

unseal Rat.add Rat.mul Rat.sub Rat.inv Rat.ofScientific in
/-- C2 amended witness: with a single source, a returned frame was
stored under that source. -/
theorem getFrame_source_scoped_witness :
    ∃ op ∈ [(⟨"v".toList, 2, frameA, 0⟩ : PutOp)],
      op.video_path = "v".toList ∧ op.frame = frameA :=
  getFrame_source_scoped [⟨"v".toList, 2, frameA, 0⟩] "v".toList 2.03 7 frameA
    (by decide) (by decide)

/-! ## C8: the nearest neighbor fallback -/

unseal Rat.add Rat.mul Rat.sub Rat.inv Rat.ofScientific in
/-- C8 counterexample: entries stored under source a at 3.0 and under
source ab at 2.0; the exact lookup for (a, 2.0) misses, the only entry
of source a is a full second away (at least the 0.5 bound, so the claim
requires that nothing is returned), yet get_frame returns the frame
stored under ab: the fallback scans by key prefix, not by source. -/
theorem getFrame_fallback_crosses_sources :
    lookupAssoc (makeCacheKey "a".toList 2)
      (cacheOfPuts [⟨"a".toList, 3, frameA, 0⟩, ⟨"ab".toList, 2, frameB, 1⟩]).cache = none ∧
    (getFrame 5 (cacheOfPuts [⟨"a".toList, 3, frameA, 0⟩, ⟨"ab".toList, 2, frameB, 1⟩])
        "a".toList 2).1 = some frameB ∧
    ¬ |(3 : ℚ) - 2| < 1/2 ∧ frameB ≠ frameA := by decide

/-- C8 amended: when the exact quantized lookup misses, get_frame does
not mutate the cache (no access time is refreshed), and over the
candidate set (entries whose key string starts with the queried source
and whose time field parses) it returns the frame of a candidate whose
distance to the requested time is minimal iff that minimum is strictly
below 0.5 seconds; when it returns nothing, every candidate is at least
0.5 seconds away. -/
theorem getFrame_fallback_spec (now : Nat) (c : FrameCache) (s : Str) (t : ℚ)
    (hmiss : lookupAssoc (makeCacheKey s t) c.cache = none) :
    (getFrame now c s t).2 = c ∧
    (∀ f, (getFrame now c s t).1 = some f →
      ∃ cd ∈ nearbyCandidates c s t, cd.1.frame = f ∧ cd.2 < 1/2 ∧
        ∀ cd2 ∈ nearbyCandidates c s t, cd.2 ≤ cd2.2) ∧
    ((getFrame now c s t).1 = none → ∀ cd ∈ nearbyCandidates c s t, 1/2 ≤ cd.2) := by
  have hg : getFrame now c s t = (findNearbyFrame c s t, c) := by
    simp [getFrame, hmiss]
  rw [hg]
  exact ⟨rfl, (findNearbyFrame_spec c s t).1, (findNearbyFrame_spec c s t).2⟩

unseal Rat.add Rat.mul Rat.sub Rat.inv Rat.ofScientific in
/-- C8 amended witness at a concrete miss. -/
theorem getFrame_fallback_spec_witness :
    (getFrame 9 (cacheOfPuts [⟨"v".toList, 2, frameA, 0⟩]) "v".toList 2.4).2 =
      cacheOfPuts [⟨"v".toList, 2, frameA, 0⟩] ∧
    (∀ f, (getFrame 9 (cacheOfPuts [⟨"v".toList, 2, frameA, 0⟩]) "v".toList 2.4).1 = some f →
      ∃ cd ∈ nearbyCandidates (cacheOfPuts [⟨"v".toList, 2, frameA, 0⟩]) "v".toList 2.4,
        cd.1.frame = f ∧ cd.2 < 1/2 ∧
        ∀ cd2 ∈ nearbyCandidates (cacheOfPuts [⟨"v".toList, 2, frameA, 0⟩]) "v".toList 2.4,
          cd.2 ≤ cd2.2) ∧
    ((getFrame 9 (cacheOfPuts [⟨"v".toList, 2, frameA, 0⟩]) "v".toList 2.4).1 = none →
      ∀ cd ∈ nearbyCandidates (cacheOfPuts [⟨"v".toList, 2, frameA, 0⟩]) "v".toList 2.4,
        1/2 ≤ cd.2) :=
  getFrame_fallback_spec 9 (cacheOfPuts [⟨"v".toList, 2, frameA, 0⟩]) "v".toList 2.4
    (by decide)

end Dino
